import Mathlib

/-!
# Verification of the `ultra-batch` request-coalescing library

Shallow embedding of the core of the repository:

* `src/cache.rs` — the keyed cache store (`CacheState`, `Cache::insert`,
  `Cache::mark_keys_not_found`) and the per-call lookup cursor
  (`CacheLookup::new`, `reload_keys_from_cache_store`, `pending_keys`,
  `lookup_result`, `lookup`).
* `src/batch_fetcher.rs` — the fetch worker's accumulation loop and its
  post-handler step (`BatchFetcherBuilder::finish`), and the reply handling
  in `BatchFetcher::load_keys`.
* `src/batch_executor.rs` — the execute worker's accumulation loop, the
  concatenation of submissions, and the reverse-order `split_off` result
  distribution (`BatchExecutorBuilder::finish`).

The concurrent hash map (`CHashMap` / `HashMap`) is embedded as an
association list with at most one binding per key; map iteration order is
never relied upon by the statements proved here.  Timed behaviour of the
worker loop (`tokio::time::sleep` inside `tokio::select!`) is embedded as a
recursive function over a schedule of arrival-timestamped requests.
-/

set_option maxHeartbeats 1000000

/-- `CacheState<V>` from `src/cache.rs`: `Loaded(V) | NotFound`. -/
inductive CacheState (V : Type) where
  | Loaded (v : V)
  | NotFound
deriving DecidableEq, Repr

/-- Association-list lookup: the embedding of `HashMap::get` /
`CHashMap::get` (at most one binding per key is ever created by the
operations below, and only the first binding is consulted). -/
def alistGet {K A : Type} [DecidableEq K] : List (K × A) → K → Option A
  | [], _ => none
  | (k', a) :: rest, k => if k = k' then some a else alistGet rest k

/-- Association-list insert-or-replace: the embedding of `HashMap::insert`
(replaces the binding when the key is present, appends it otherwise). -/
def alistInsert {K A : Type} [DecidableEq K] : List (K × A) → K → A → List (K × A)
  | [], k, a => [(k, a)]
  | (k', a') :: rest, k, a =>
      if k = k' then (k, a) :: rest else (k', a') :: alistInsert rest k a

/-- The shared cache store of a fetch coalescer: `CHashMap<K, CacheState<V>>`
from `src/cache.rs`. -/
def CacheStore (K V : Type) : Type := List (K × CacheState V)

/-- `Cache::insert` (`src/cache.rs:20-22`): store `Loaded(value)`,
replacing any prior state. -/
def cacheInsert {K V : Type} [DecidableEq K] (s : CacheStore K V) (k : K) (v : V) :
    CacheStore K V :=
  alistInsert s k (CacheState.Loaded v)

/-- `Cache::mark_keys_not_found` (`src/cache.rs:24-29`): for each key,
`alter(key, |value| Some(value.unwrap_or(CacheState::NotFound)))` — keep an
existing entry unchanged, otherwise set `NotFound`. -/
def markKeysNotFound {K V : Type} [DecidableEq K] : CacheStore K V → List K → CacheStore K V
  | s, [] => s
  | s, k :: rest =>
      match alistGet s k with
      | some _ => markKeysNotFound s rest
      | none => markKeysNotFound (alistInsert s k CacheState.NotFound) rest

/-- A sequence of `Cache::insert` calls, as performed by a `Fetcher::fetch`
handler during one batch (`src/batch_fetcher.rs:362-366`). -/
def applyInserts {K V : Type} [DecidableEq K] (s : CacheStore K V) (ins : List (K × V)) :
    CacheStore K V :=
  ins.foldl (fun s kv => cacheInsert s kv.1 kv.2) s

/-- The value a sequence of `Cache::insert` calls leaves for a key: the
value of the **last** insert naming that key, since each insert replaces
the prior binding (`src/cache.rs:20-22`); `none` when no insert names it. -/
def lastInsertedVal {K V : Type} [DecidableEq K] (ins : List (K × V)) (k : K) : Option V :=
  ins.foldl (fun acc kv => if kv.1 = k then some kv.2 else acc) none

/-- The operations the coalescer's cache supports, as used to state
cache-evolution invariants: handler inserts and the worker's
mark-not-found post-step. -/
inductive CacheOp (K V : Type) where
  | insert (k : K) (v : V)
  | markNotFound (keys : List K)
deriving Repr

/-- Run a sequence of cache operations on a store. -/
def applyOps {K V : Type} [DecidableEq K] (s : CacheStore K V) : List (CacheOp K V) → CacheStore K V
  | [] => s
  | CacheOp.insert k v :: rest => applyOps (cacheInsert s k v) rest
  | CacheOp.markNotFound keys :: rest => applyOps (markKeysNotFound s keys) rest

/-- `LoadError` from `src/batch_fetcher.rs:399-413`. -/
inductive LoadError where
  | FetchError (msg : String)
  | SendError
  | NotFound
deriving DecidableEq, Repr

/-- `CacheLookup<K, V>` from `src/cache.rs:55-61`: the caller's ordered key
list plus a map from each distinct key to `Option<CacheState<V>>`. -/
structure CacheLookup (K V : Type) where
  keys : List K
  entries : List (K × Option (CacheState V))

/-- `CacheLookup::new` (`src/cache.rs:68-71`): every key of the list is
mapped to `None` (duplicates collapse to one binding, as in `HashMap`'s
`collect`). -/
def CacheLookup.new {K V : Type} [DecidableEq K] (keys : List K) : CacheLookup K V :=
  { keys := keys
    entries := keys.foldl (fun e k => alistInsert e k none) [] }

/-- `CacheLookup::reload_keys_from_cache_store` (`src/cache.rs:73-85`):
for each entry still `None`, copy in the cache store's current state for
that key (which may itself still be absent). -/
def CacheLookup.reload {K V : Type} [DecidableEq K] (c : CacheLookup K V)
    (store : CacheStore K V) : CacheLookup K V :=
  { c with
    entries :=
      c.entries.map fun ks =>
        match ks.2 with
        | some st => (ks.1, some st)
        | none => (ks.1, alistGet store ks.1) }

/-- `CacheLookup::pending_keys` (`src/cache.rs:87-95`): the keys whose slot
is still `None`. -/
def CacheLookup.pendingKeys {K V : Type} (c : CacheLookup K V) : List K :=
  c.entries.filterMap fun ks =>
    match ks.2 with
    | none => some ks.1
    | some _ => none

/-- Body of `CacheLookup::lookup_result` (`src/cache.rs:97-111`), iterating
over the caller's ordered key list.  The Rust code `collect`s a fallible
iterator, stopping at the first `Err`; a key missing from the entries map
panics (`expect`), embedded here as `none`. -/
def lookupResultGo {K V : Type} [DecidableEq K]
    (entries : List (K × Option (CacheState V))) :
    List K → Option (Except LoadError (List V))
  | [] => some (Except.ok [])
  | k :: ks =>
      match alistGet entries k with
      | none => none
      | some (some (CacheState.Loaded v)) =>
          match lookupResultGo entries ks with
          | none => none
          | some (Except.ok vs) => some (Except.ok (v :: vs))
          | some (Except.error e) => some (Except.error e)
      | some (some CacheState.NotFound) => some (Except.error LoadError.NotFound)
      | some none => some (Except.error LoadError.NotFound)

/-- `CacheLookup::lookup_result` (`src/cache.rs:97-111`). -/
def CacheLookup.lookupResult {K V : Type} [DecidableEq K] (c : CacheLookup K V) :
    Option (Except LoadError (List V)) :=
  lookupResultGo c.entries c.keys

/-- `CacheLookupState<V>` from `src/cache.rs:125-128`.  The `Done` payload
carries the (possibly panicking) `lookup_result`. -/
inductive CacheLookupState (V : Type) where
  | Done (r : Option (Except LoadError (List V)))
  | Pending

/-- `CacheLookup::lookup` (`src/cache.rs:113-122`): refresh from the store,
then report `Done(lookup_result)` when no key is pending, else `Pending`.
Returns the refreshed cursor together with the state, making the Rust
`&mut self` explicit. -/
def CacheLookup.lookup {K V : Type} [DecidableEq K] (c : CacheLookup K V)
    (store : CacheStore K V) : CacheLookup K V × CacheLookupState V :=
  let c2 := c.reload store
  if c2.pendingKeys = [] then (c2, CacheLookupState.Done c2.lookupResult)
  else (c2, CacheLookupState.Pending)

example :
    alistGet (cacheInsert ([] : CacheStore Nat Nat) 1 10) 1 =
      some (CacheState.Loaded 10) := by decide

example :
    alistGet (markKeysNotFound (cacheInsert ([] : CacheStore Nat Nat) 1 10) [1, 2]) 1 =
      some (CacheState.Loaded 10) := by decide

example :
    alistGet (markKeysNotFound (cacheInsert ([] : CacheStore Nat Nat) 1 10) [1, 2]) 2 =
      some CacheState.NotFound := by decide

example :
    (CacheLookup.new (V := Nat) [1, 2, 1]).pendingKeys = [1, 2] := by decide

example :
    ((CacheLookup.new (V := Nat) [1, 2]).reload
        (cacheInsert ([] : CacheStore Nat Nat) 1 10)).pendingKeys = [2] := by decide

example :
    ((CacheLookup.new (V := Nat) [1, 2, 1]).reload
        (markKeysNotFound (cacheInsert ([] : CacheStore Nat Nat) 1 10) [1, 2])).lookupResult
      = some (Except.error LoadError.NotFound) := rfl

example :
    ((CacheLookup.new (V := Nat) [1, 2, 1]).reload
        (cacheInsert (cacheInsert ([] : CacheStore Nat Nat) 1 10) 2 20)).lookupResult
      = some (Except.ok [10, 20, 10]) := rfl

/-- The eager-flush test at the top of the `'wait_for_more_keys` loop
(`src/batch_fetcher.rs:307-310`, `src/batch_executor.rs:264-267`):
`Some(n) => size >= n`, `None => false`. -/
def shouldRunNow (eager : Option Nat) (size : Nat) : Bool :=
  match eager with
  | some n => n ≤ size
  | none => false

/-- Accumulating a fetch request's keys into the worker's pending set
(`for key in fetch_request.keys { pending_keys.insert(key); }`,
`src/batch_fetcher.rs:294-296`): a `HashSet`, embedded as a duplicate-free
list. -/
def fetchInsertKeys {K : Type} [DecidableEq K] : List K → List K → List K
  | pending, [] => pending
  | pending, k :: rest =>
      fetchInsertKeys (if k ∈ pending then pending else pending ++ [k]) rest

/-- The fetch worker's `'wait_for_more_keys` loop
(`src/batch_fetcher.rs:306-355`), embedded over a schedule of
arrival-timestamped requests (sorted by arrival time).  `now` is the time
the current loop iteration starts (the arrival time of the most recent
request).  Each iteration first checks the eager threshold; otherwise it
creates a **fresh** `sleep(delay_duration)` and selects between the next
request and that timer: a request arriving strictly before `now + d` is
accumulated (and the next iteration's timer restarts from its arrival
time), otherwise the timer fires and the batch flushes at `now + d`.
Returns `(flush time, accumulated keys, requests left for later batches)`.
An empty schedule stands for "no further request arrives before the
timer fires". -/
def fetchLoop {K : Type} [DecidableEq K] (eager : Option Nat) (d : Nat)
    (pending : List K) (now : Nat) :
    List (Nat × List K) → Nat × List K × List (Nat × List K)
  | [] =>
      if shouldRunNow eager pending.length then (now, pending, [])
      else (now + d, pending, [])
  | (t, ks) :: rest =>
      if shouldRunNow eager pending.length then (now, pending, (t, ks) :: rest)
      else if t < now + d then fetchLoop eager d (fetchInsertKeys pending ks) t rest
      else (now + d, pending, (t, ks) :: rest)

/-- One full accumulation phase of the fetch worker (`P1` + `P2`,
`src/batch_fetcher.rs:284-355`): block for the first request (`none` =
channel closed), seed the pending set with its keys, then run the
wait-for-more-keys loop. -/
def fetchBatchRun {K : Type} [DecidableEq K] (eager : Option Nat) (d : Nat) :
    List (Nat × List K) → Option (Nat × List K × List (Nat × List K))
  | [] => none
  | (t, ks) :: rest => some (fetchLoop eager d (fetchInsertKeys [] ks) t rest)

/-- The execute worker's `'wait_for_more_values` loop
(`src/batch_executor.rs:263-313`): same shape as `fetchLoop`, but pending
state is an ordered `Vec` of values extended by concatenation, so its size
counts every value (duplicates included). -/
def execLoop {V : Type} (eager : Option Nat) (d : Nat)
    (pending : List V) (now : Nat) :
    List (Nat × List V) → Nat × List V × List (Nat × List V)
  | [] =>
      if shouldRunNow eager pending.length then (now, pending, [])
      else (now + d, pending, [])
  | (t, vs) :: rest =>
      if shouldRunNow eager pending.length then (now, pending, (t, vs) :: rest)
      else if t < now + d then execLoop eager d (pending ++ vs) t rest
      else (now + d, pending, (t, vs) :: rest)

/-- One full accumulation phase of the execute worker
(`src/batch_executor.rs:241-313`). -/
def execBatchRun {V : Type} (eager : Option Nat) (d : Nat) :
    List (Nat × List V) → Option (Nat × List V × List (Nat × List V))
  | [] => none
  | (t, vs) :: rest => some (execLoop eager d vs t rest)

/-- The fetch worker's post-accumulation step (`P3`,
`src/batch_fetcher.rs:357-373`): the handler runs (performing `ins` cache
inserts before returning `res`); on success the worker applies
`mark_keys_not_found` to the full batch key list; on error it does not.
Returns the resulting cache store and the result value that is cloned to
every reply channel. -/
def workerFetchP3 {K V : Type} [DecidableEq K] (store : CacheStore K V)
    (batchKeys : List K) (ins : List (K × V)) (res : Except String Unit) :
    CacheStore K V × Except String Unit :=
  let store1 := applyInserts store ins
  match res with
  | Except.ok _ => (markKeysNotFound store1 batchKeys, Except.ok ())
  | Except.error e => (store1, Except.error e)

/-- The reply fan-out (`src/batch_fetcher.rs:375-378`): every accumulated
reply channel receives a clone of the same batch result. -/
def fanOutReplies (n : Nat) (res : Except String Unit) : List (Except String Unit) :=
  List.replicate n res

/-- The tail of `BatchFetcher::load_keys` (`src/batch_fetcher.rs:181-208`):
after the reply arrives, `Err(msg)` becomes `LoadError::FetchError(msg)`;
`Ok(())` triggers a second `lookup` against the store, whose `Pending`
branch panics (embedded as `none`; `none` inside `Done` is the
`lookup_result` panic). -/
def loadKeysAfterReply {K V : Type} [DecidableEq K] (c : CacheLookup K V)
    (store : CacheStore K V) (reply : Except String Unit) :
    Option (Except LoadError (List V)) :=
  match reply with
  | Except.error msg => some (Except.error (LoadError.FetchError msg))
  | Except.ok _ =>
      match (c.lookup store).2 with
      | CacheLookupState.Done r => r
      | CacheLookupState.Pending => none

/-- The execute worker's batch accumulator (`src/batch_executor.rs:247-294`):
each submission's values are appended to `pending_values` after recording
`result_start_index = pending_values.len()`.  Returns the concatenated
value list and the recorded start indices, in submission order. -/
def buildExecBatch {V : Type} (subs : List (List V)) : List V × List Nat :=
  subs.foldl (fun acc vs => (acc.1 ++ vs, acc.2 ++ [acc.1.length])) ([], [])

/-- The reverse-order result distribution (`src/batch_executor.rs:322-336`)
on the success path, processing recorded start indices from the **last**
submission backwards: `if result_range <= result.len() { result.split_off(result_range) }
else { vec![] }`, where `split_off(i)` removes and returns the tail from
position `i` and leaves the prefix behind for earlier submissions.
The input list is the start indices in reverse submission order; the output
lists the replies in that same reverse order. -/
def distributeRev {R : Type} : List Nat → List R → List (List R)
  | [], _ => []
  | s :: rest, res =>
      if s ≤ res.length then res.drop s :: distributeRev rest (res.take s)
      else [] :: distributeRev rest res

/-- The whole reply-distribution step of the execute worker
(`src/batch_executor.rs:316-336`): on success, split the result vector in
reverse submission order; on error, clone the stringified error to every
reply.  The output lists per-submission replies in submission order. -/
def execDistribute {R : Type} (starts : List Nat) (result : Except String (List R)) :
    List (Except String (List R)) :=
  match result with
  | Except.error e => starts.map fun _ => Except.error e
  | Except.ok res => ((distributeRev starts.reverse res).map Except.ok).reverse

/-- One fetch batch of a coalescer's lifetime, abstracting the handler's
behaviour: the batch's accumulated key list, the cache inserts the handler
performs, and whether it returns success. -/
structure FetchBatchEv (K V : Type) where
  keys : List K
  inserts : List (K × V)
  ok : Bool

/-- Effect of one batch on the shared cache store: the handler's inserts,
then (on success only) `mark_keys_not_found` over the batch keys
(`src/batch_fetcher.rs:357-373`). -/
def stepBatch {K V : Type} [DecidableEq K] (s : CacheStore K V) (e : FetchBatchEv K V) :
    CacheStore K V :=
  let s1 := applyInserts s e.inserts
  if e.ok then markKeysNotFound s1 e.keys else s1

/-- Run a sequence of batches against the store. -/
def runBatches {K V : Type} [DecidableEq K] (s : CacheStore K V) :
    List (FetchBatchEv K V) → CacheStore K V
  | [] => s
  | e :: rest => runBatches (stepBatch s e) rest

/-- Sequential well-formedness of a batch trace: every key of every batch
is uncached in the store state immediately preceding that batch.  This is
the regime in which each `load_keys` call computes its `pending_keys`
(`src/batch_fetcher.rs:152-162`) against the up-to-date store, with no
overlap between a pending-key computation and an in-flight batch. -/
def seqWF {K V : Type} [DecidableEq K] (s : CacheStore K V) :
    List (FetchBatchEv K V) → Bool
  | [] => true
  | e :: rest =>
      (e.keys.all fun k => (alistGet s k).isNone) && seqWF (stepBatch s e) rest

/-- Concurrent well-formedness of a batch trace: every key of batch `i`
was uncached in **some** store state at or before batch `i` — the state in
which the submitting `load_keys` call computed its `pending_keys`.  This
models overlap: a request may be computed against a stale store while an
earlier batch is still in flight (`src/batch_fetcher.rs:152-179` computes
pending keys before sending; the worker `src/batch_fetcher.rs:290-303`
accepts whatever keys arrive, without re-checking the cache). -/
def concWFgo {K V : Type} [DecidableEq K] (past : List (CacheStore K V))
    (cur : CacheStore K V) : List (FetchBatchEv K V) → Bool
  | [] => true
  | e :: rest =>
      (e.keys.all fun k => (past ++ [cur]).any fun st => (alistGet st k).isNone) &&
        concWFgo (past ++ [cur]) (stepBatch cur e) rest

/-- Concurrent well-formedness from an initial store. -/
def concWF {K V : Type} [DecidableEq K] (s : CacheStore K V)
    (evts : List (FetchBatchEv K V)) : Bool :=
  concWFgo [] s evts

/-- Number of batches in a trace whose key list contains `k` — the number
of times the handler is invoked with `k` in its keys list. -/
def handlerCallsWith {K V : Type} [DecidableEq K] (k : K)
    (evts : List (FetchBatchEv K V)) : Nat :=
  (evts.filter fun e => k ∈ e.keys).length

example :
    fetchBatchRun (K := Nat) none 10 [(0, [1]), (5, [2]), (12, [3])] =
      some (22, [1, 2, 3], []) := rfl

example :
    fetchBatchRun (K := Nat) (some 2) 10 [(0, [1]), (5, [2]), (12, [3])] =
      some (5, [1, 2], [(12, [3])]) := rfl

example :
    execBatchRun (V := Nat) (some 3) 10 [(0, [1, 1, 1, 1])] =
      some (0, [1, 1, 1, 1], []) := rfl

example :
    buildExecBatch (V := Nat) [[1, 2], [3], [4, 5, 6]] =
      ([1, 2, 3, 4, 5, 6], [0, 2, 3]) := rfl

example :
    execDistribute (R := Nat) [0, 2, 3] (Except.ok [10, 20, 30, 40, 50, 60]) =
      [Except.ok [10, 20], Except.ok [30], Except.ok [40, 50, 60]] := rfl

example :
    execDistribute (R := Nat) [0, 2, 3] (Except.ok [10, 20]) =
      [Except.ok [10, 20], Except.ok [], Except.ok []] := rfl

example :
    execDistribute (R := Nat) [0, 2, 3] (Except.error "boom") =
      [Except.error "boom", Except.error "boom", Except.error "boom"] := rfl

/-- An entry holding a `Loaded` value. -/
def isLoadedEntry {V : Type} : Option (CacheState V) → Bool
  | some (CacheState.Loaded _) => true
  | _ => false
/-- Largest arrival time in a schedule (including the current iteration
start). -/
def maxArrival {A : Type} (now : Nat) : List (Nat × A) → Nat
  | [] => now
  | (t, _) :: rest => maxArrival (max now t) rest
/-- Arrival time of the last submission accepted into the batch, under the
debounce rule: a request arriving strictly within `d` of the previous one
restarts the window from its own arrival time. -/
def lastAccepted {A : Type} (d now : Nat) : List (Nat × A) → Nat
  | [] => now
  | (t, _) :: rest => if t < now + d then lastAccepted d t rest else now
/-- Specification of the recorded `result_start_index` values: the running
offsets of each submission inside the concatenated batch. -/
def startsOf (acc : Nat) : List Nat → List Nat
  | [] => []
  | n :: rest => acc :: startsOf (acc + n) rest
/-- Splitting a result list into consecutive blocks of the given lengths. -/
def slicesByLens {R : Type} : List R → List Nat → List (List R)
  | _, [] => []
  | res, n :: rest => res.take n :: slicesByLens (res.drop n) rest

/-! ## Basic lemmas about the association-list map operations -/

theorem alistGet_insert {K A : Type} [DecidableEq K] (s : List (K × A)) (k k2 : K) (a : A) :
    alistGet (alistInsert s k2 a) k = if k = k2 then some a else alistGet s k := by
  induction s with
  | nil => simp [alistInsert, alistGet]
  | cons p rest ih =>
      obtain ⟨k', a'⟩ := p
      by_cases h : k2 = k'
      · subst h
        by_cases hk : k = k2 <;> simp [alistInsert, alistGet, hk]
      · by_cases hk : k = k'
        · subst hk
          have hne : ¬k = k2 := fun hh => h hh.symm
          simp [alistInsert, alistGet, h, hne]
        · simp [alistInsert, alistGet, h, hk, ih]

theorem alistGet_insert_isSome {K A : Type} [DecidableEq K] (s : List (K × A)) (k k2 : K)
    (a : A) (h : (alistGet s k).isSome) : (alistGet (alistInsert s k2 a) k).isSome := by
  rw [alistGet_insert]
  by_cases hk : k = k2 <;> simp [hk, h]

theorem markKeysNotFound_get_some {K V : Type} [DecidableEq K] (keys : List K)
    (s : CacheStore K V) (k : K) (st : CacheState V) (h : alistGet s k = some st) :
    alistGet (markKeysNotFound s keys) k = some st := by
  induction keys generalizing s with
  | nil => simpa [markKeysNotFound] using h
  | cons k1 rest ih =>
      cases h1 : alistGet s k1 with
      | some st1 => rw [markKeysNotFound, h1]; exact ih s h
      | none =>
          rw [markKeysNotFound, h1]
          apply ih
          rw [alistGet_insert]
          have hk : ¬k = k1 := by
            intro hk; rw [hk, h1] at h; exact Option.noConfusion h
          simp [hk, h]

theorem markKeysNotFound_get_none {K V : Type} [DecidableEq K] (keys : List K)
    (s : CacheStore K V) (k : K) (h : alistGet s k = none) :
    alistGet (markKeysNotFound s keys) k =
      if k ∈ keys then some CacheState.NotFound else none := by
  induction keys generalizing s with
  | nil => simpa [markKeysNotFound] using h
  | cons k1 rest ih =>
      by_cases hk : k = k1
      · subst hk
        rw [markKeysNotFound, h]
        have hself : alistGet (alistInsert s k CacheState.NotFound) k =
            some CacheState.NotFound := by
          rw [alistGet_insert]; simp
        rw [markKeysNotFound_get_some rest _ _ _ hself]
        simp
      · cases h1 : alistGet s k1 with
        | some st1 =>
            rw [markKeysNotFound, h1, ih s h]
            simp [List.mem_cons, hk]
        | none =>
            rw [markKeysNotFound, h1]
            have h2 : alistGet (alistInsert s k1 CacheState.NotFound) k = none := by
              rw [alistGet_insert]; simp [hk, h]
            rw [ih _ h2]
            simp [List.mem_cons, hk]

theorem markKeysNotFound_isSome {K V : Type} [DecidableEq K] (keys : List K)
    (s : CacheStore K V) (k : K) (h : (alistGet s k).isSome) :
    (alistGet (markKeysNotFound s keys) k).isSome := by
  cases hs : alistGet s k with
  | none => rw [hs] at h; exact absurd h (by simp)
  | some st => simp [markKeysNotFound_get_some keys s k st hs]

theorem markKeysNotFound_covers {K V : Type} [DecidableEq K] (keys : List K)
    (s : CacheStore K V) (k : K) (hk : k ∈ keys) :
    (alistGet (markKeysNotFound s keys) k).isSome := by
  cases hs : alistGet s k with
  | none => rw [markKeysNotFound_get_none keys s k hs]; simp [hk]
  | some st => simp [markKeysNotFound_get_some keys s k st hs]

theorem applyInserts_isSome {K V : Type} [DecidableEq K] (ins : List (K × V))
    (s : CacheStore K V) (k : K) (h : (alistGet s k).isSome) :
    (alistGet (applyInserts s ins) k).isSome := by
  induction ins generalizing s with
  | nil => simpa [applyInserts] using h
  | cons kv rest ih =>
      show (alistGet (applyInserts _ rest) k).isSome
      exact ih _ (alistGet_insert_isSome s k kv.1 (CacheState.Loaded kv.2) h)

theorem applyInserts_get_eq_or_inserted {K V : Type} [DecidableEq K] (ins : List (K × V))
    (s : CacheStore K V) (k : K) :
    alistGet (applyInserts s ins) k = alistGet s k ∨
      ∃ v, (k, v) ∈ ins ∧ alistGet (applyInserts s ins) k = some (CacheState.Loaded v) := by
  induction ins generalizing s with
  | nil => left; rfl
  | cons kv rest ih =>
      obtain ⟨k1, v1⟩ := kv
      show alistGet (applyInserts (cacheInsert s k1 v1) rest) k = _ ∨ _
      rcases ih (cacheInsert s k1 v1) with h | ⟨v, hv, hg⟩
      · by_cases hk : k = k1
        · subst hk
          right
          refine ⟨v1, List.mem_cons_self _ _, ?_⟩
          exact h.trans (by rw [cacheInsert, alistGet_insert, if_pos rfl])
        · left
          exact h.trans (by rw [cacheInsert, alistGet_insert, if_neg hk])
      · right; exact ⟨v, List.mem_cons_of_mem _ hv, hg⟩

theorem applyInserts_notFound {K V : Type} [DecidableEq K] (ins : List (K × V))
    (s : CacheStore K V) (k : K)
    (h : alistGet (applyInserts s ins) k = some CacheState.NotFound) :
    alistGet s k = some CacheState.NotFound := by
  induction ins generalizing s with
  | nil => simpa [applyInserts] using h
  | cons kv rest ih =>
      have h2 := ih (cacheInsert s kv.1 kv.2) h
      rw [cacheInsert, alistGet_insert] at h2
      by_cases hk : k = kv.1
      · simp [hk] at h2
      · simpa [hk] using h2

theorem lastInsertedVal_foldl_init {K V : Type} [DecidableEq K] (rest : List (K × V))
    (init : Option V) (k : K) :
    rest.foldl (fun acc kv => if kv.1 = k then some kv.2 else acc) init =
      match lastInsertedVal rest k with
      | some v => some v
      | none => init := by
  induction rest generalizing init with
  | nil => rfl
  | cons kv r ih =>
      obtain ⟨k2, v2⟩ := kv
      show r.foldl _ (if k2 = k then some v2 else init) = _
      rw [ih]
      have hcons : lastInsertedVal ((k2, v2) :: r) k =
          match lastInsertedVal r k with
          | some v => some v
          | none => if k2 = k then some v2 else none := by
        show r.foldl _ (if k2 = k then some v2 else none) = _
        rw [ih]
      rw [hcons]
      cases lastInsertedVal r k with
      | some v => rfl
      | none =>
          dsimp only
          by_cases hk : k2 = k
          · rw [if_pos hk, if_pos hk]
          · rw [if_neg hk, if_neg hk]

theorem applyInserts_get_last {K V : Type} [DecidableEq K] (ins : List (K × V))
    (s : CacheStore K V) (k : K) :
    alistGet (applyInserts s ins) k =
      match lastInsertedVal ins k with
      | some v => some (CacheState.Loaded v)
      | none => alistGet s k := by
  induction ins generalizing s with
  | nil => rfl
  | cons kv rest ih =>
      obtain ⟨k1, v1⟩ := kv
      show alistGet (applyInserts (cacheInsert s k1 v1) rest) k = _
      rw [ih]
      have hcons : lastInsertedVal ((k1, v1) :: rest) k =
          match lastInsertedVal rest k with
          | some v => some v
          | none => if k1 = k then some v1 else none := by
        show rest.foldl _ (if k1 = k then some v1 else none) = _
        rw [lastInsertedVal_foldl_init]
      rw [hcons]
      cases lastInsertedVal rest k with
      | some v => rfl
      | none =>
          dsimp only
          rw [cacheInsert, alistGet_insert]
          by_cases hk : k1 = k
          · rw [if_pos hk.symm, if_pos hk]
          · rw [if_neg (fun h => hk h.symm), if_neg hk]

theorem isLoadedEntry_isSome {V : Type} (o : Option (CacheState V))
    (h : isLoadedEntry o = true) : o.isSome := by
  cases o with
  | none => simp [isLoadedEntry] at h
  | some st => simp

theorem cacheInsert_isLoaded {K V : Type} [DecidableEq K] (s : CacheStore K V) (k k2 : K)
    (v : V) (h : isLoadedEntry (alistGet s k) = true) :
    isLoadedEntry (alistGet (cacheInsert s k2 v) k) = true := by
  rw [cacheInsert, alistGet_insert]
  by_cases hk : k = k2
  · rw [if_pos hk]; rfl
  · rw [if_neg hk]; exact h

theorem markKeysNotFound_isLoaded {K V : Type} [DecidableEq K] (keys : List K)
    (s : CacheStore K V) (k : K) (h : isLoadedEntry (alistGet s k) = true) :
    isLoadedEntry (alistGet (markKeysNotFound s keys) k) = true := by
  cases hs : alistGet s k with
  | none => rw [hs] at h; simp [isLoadedEntry] at h
  | some st => rw [markKeysNotFound_get_some keys s k st hs]; rwa [hs] at h

theorem applyInserts_isLoaded {K V : Type} [DecidableEq K] (ins : List (K × V))
    (s : CacheStore K V) (k : K) (h : isLoadedEntry (alistGet s k) = true) :
    isLoadedEntry (alistGet (applyInserts s ins) k) = true := by
  induction ins generalizing s with
  | nil => simpa [applyInserts] using h
  | cons kv rest ih =>
      show isLoadedEntry (alistGet (applyInserts _ rest) k) = true
      exact ih _ (cacheInsert_isLoaded s k kv.1 kv.2 h)

theorem applyOps_isSome {K V : Type} [DecidableEq K] (ops : List (CacheOp K V))
    (s : CacheStore K V) (k : K) (h : (alistGet s k).isSome) :
    (alistGet (applyOps s ops) k).isSome := by
  induction ops generalizing s with
  | nil => exact h
  | cons op rest ih =>
      cases op with
      | insert k1 v1 =>
          exact ih _ (alistGet_insert_isSome s k k1 (CacheState.Loaded v1) h)
      | markNotFound keys => exact ih _ (markKeysNotFound_isSome keys s k h)

theorem applyOps_isLoaded {K V : Type} [DecidableEq K] (ops : List (CacheOp K V))
    (s : CacheStore K V) (k : K) (h : isLoadedEntry (alistGet s k) = true) :
    isLoadedEntry (alistGet (applyOps s ops) k) = true := by
  induction ops generalizing s with
  | nil => exact h
  | cons op rest ih =>
      cases op with
      | insert k1 v1 => exact ih _ (cacheInsert_isLoaded s k k1 v1 h)
      | markNotFound keys => exact ih _ (markKeysNotFound_isLoaded keys s k h)

theorem stepBatch_isSome {K V : Type} [DecidableEq K] (e : FetchBatchEv K V)
    (s : CacheStore K V) (k : K) (h : (alistGet s k).isSome) :
    (alistGet (stepBatch s e) k).isSome := by
  unfold stepBatch
  by_cases he : e.ok
  · simp only [he, if_true]
    exact markKeysNotFound_isSome _ _ _ (applyInserts_isSome _ _ _ h)
  · simp only [he, if_false]
    exact applyInserts_isSome _ _ _ h

/-! ## Lemmas about the lookup cursor -/

theorem newEntries_get {K V : Type} [DecidableEq K] (keys : List K)
    (init : List (K × Option (CacheState V))) (k : K) :
    alistGet (keys.foldl (fun e k => alistInsert e k none) init) k =
      if k ∈ keys then some none else alistGet init k := by
  induction keys generalizing init with
  | nil => simp
  | cons k1 rest ih =>
      rw [List.foldl_cons, ih]
      by_cases hk : k ∈ rest
      · simp [hk]
      · rw [alistGet_insert]
        by_cases hk1 : k = k1 <;> simp [hk, hk1, List.mem_cons]

theorem CacheLookup.new_entries_get {K V : Type} [DecidableEq K] (keys : List K) (k : K) :
    alistGet (CacheLookup.new (V := V) keys).entries k =
      if k ∈ keys then some none else none := by
  simpa using newEntries_get (V := V) keys [] k

theorem reload_entries_get {K V : Type} [DecidableEq K]
    (entries : List (K × Option (CacheState V))) (store : CacheStore K V) (keys : List K)
    (k : K) :
    alistGet ((CacheLookup.mk keys entries).reload store).entries k =
      (alistGet entries k).map fun slot =>
        match slot with
        | some st => some st
        | none => alistGet store k := by
  induction entries with
  | nil => rfl
  | cons p rest ih =>
      obtain ⟨k1, slot⟩ := p
      by_cases hk : k = k1
      · subst hk
        cases slot <;> simp [CacheLookup.reload, alistGet]
      · cases slot <;>
          simpa [CacheLookup.reload, alistGet, hk] using ih

theorem reload_pending_nil {K V : Type} [DecidableEq K] (keys : List K)
    (entries : List (K × Option (CacheState V))) (store : CacheStore K V)
    (h : ∀ k ∈ (CacheLookup.mk keys entries).pendingKeys, (alistGet store k).isSome) :
    ((CacheLookup.mk keys entries).reload store).pendingKeys = [] := by
  induction entries with
  | nil => rfl
  | cons p rest ih =>
      obtain ⟨k1, slot⟩ := p
      cases hslot : slot with
      | some st =>
          have hrest := ih (by
            intro k hk
            apply h
            simpa [CacheLookup.pendingKeys, List.filterMap_cons, hslot] using hk)
          simpa [CacheLookup.reload, CacheLookup.pendingKeys, List.filterMap_cons] using hrest
      | none =>
          have hk1 : (alistGet store k1).isSome := by
            apply h
            simp [CacheLookup.pendingKeys, List.filterMap_cons, hslot]
          obtain ⟨st, hst⟩ := Option.isSome_iff_exists.mp hk1
          have hrest := ih (by
            intro k hk
            apply h
            subst hslot
            simpa [CacheLookup.pendingKeys, List.filterMap_cons] using Or.inr hk)
          subst hslot
          simpa [CacheLookup.reload, CacheLookup.pendingKeys, List.filterMap_cons, hst]
            using hrest

theorem lookup_done_of_resolved {K V : Type} [DecidableEq K] (c : CacheLookup K V)
    (store : CacheStore K V)
    (h : ∀ k ∈ c.pendingKeys, (alistGet store k).isSome) :
    (c.lookup store).2 = CacheLookupState.Done (c.reload store).lookupResult := by
  obtain ⟨keys, entries⟩ := c
  have hnil := reload_pending_nil keys entries store h
  simp [CacheLookup.lookup, hnil]

theorem lookupResultGo_isSome {K V : Type} [DecidableEq K]
    (entries : List (K × Option (CacheState V))) (keys : List K)
    (h : ∀ k ∈ keys, (alistGet entries k).isSome) :
    (lookupResultGo entries keys).isSome := by
  induction keys with
  | nil => simp [lookupResultGo]
  | cons k ks ih =>
      obtain ⟨slot, hs⟩ := Option.isSome_iff_exists.mp (h k (List.mem_cons_self _ _))
      have hrest : ∀ k2 ∈ ks, (alistGet entries k2).isSome := fun k2 hk2 =>
        h k2 (List.mem_cons_of_mem _ hk2)
      rw [lookupResultGo, hs]
      cases slot with
      | none => simp
      | some st =>
          cases st with
          | NotFound => simp
          | Loaded v =>
              obtain ⟨r, hr⟩ := Option.isSome_iff_exists.mp (ih hrest)
              rw [hr]
              cases r <;> simp

theorem lookupResultGo_ok_spec {K V : Type} [DecidableEq K]
    (entries : List (K × Option (CacheState V))) (keys : List K) (vs : List V)
    (h : lookupResultGo entries keys = some (Except.ok vs)) :
    vs.length = keys.length ∧
      ∀ i (hi : i < keys.length) (hv : i < vs.length),
        alistGet entries (keys.get ⟨i, hi⟩) =
          some (some (CacheState.Loaded (vs.get ⟨i, hv⟩))) := by
  induction keys generalizing vs with
  | nil =>
      rw [lookupResultGo] at h
      obtain rfl : ([] : List V) = vs := by
        have := Option.some.inj h
        exact Except.ok.inj this
      exact ⟨rfl, by intro i hi; exact absurd hi (by simp)⟩
  | cons k ks ih =>
      rw [lookupResultGo] at h
      cases hslot : alistGet entries k <;> rw [hslot] at h
      · exact Option.noConfusion h
      case some slot =>
        cases slot with
        | none => exact Except.noConfusion (Option.some.inj h)
        | some st =>
            cases st with
            | NotFound => exact Except.noConfusion (Option.some.inj h)
            | Loaded v =>
                cases hrec : lookupResultGo entries ks <;> rw [hrec] at h
                · exact Option.noConfusion h
                case some r =>
                  cases r with
                  | error e => exact Except.noConfusion (Option.some.inj h)
                  | ok vs2 =>
                      obtain rfl : v :: vs2 = vs := Except.ok.inj (Option.some.inj h)
                      obtain ⟨hlen, hpt⟩ := ih vs2 hrec
                      refine ⟨by simp [hlen], ?_⟩
                      intro i hi hv
                      cases i with
                      | zero => simpa using hslot
                      | succ n =>
                          exact hpt n (by simpa using hi) (by simpa using hv)

theorem lookupResultGo_notFound {K V : Type} [DecidableEq K]
    (entries : List (K × Option (CacheState V))) (keys : List K) (k0 : K)
    (hwf : ∀ k ∈ keys, (alistGet entries k).isSome) (hk0 : k0 ∈ keys)
    (h : alistGet entries k0 = some (some CacheState.NotFound)) :
    lookupResultGo entries keys = some (Except.error LoadError.NotFound) := by
  induction keys with
  | nil => cases hk0
  | cons k ks ih =>
      rw [lookupResultGo]
      by_cases hkk : k = k0
      · subst hkk
        rw [h]
      · obtain ⟨slot, hs⟩ := Option.isSome_iff_exists.mp (hwf k (List.mem_cons_self _ _))
        have hk0ks : k0 ∈ ks := by
          cases List.mem_cons.mp hk0 with
          | inl heq => exact absurd heq.symm hkk
          | inr hm => exact hm
        have hrest : ∀ k2 ∈ ks, (alistGet entries k2).isSome := fun k2 hk2 =>
          hwf k2 (List.mem_cons_of_mem _ hk2)
        rw [hs]
        cases slot with
        | none => rfl
        | some st =>
            cases st with
            | NotFound => rfl
            | Loaded v => rw [ih hrest hk0ks]

/-! ## Lemmas about the worker accumulation loop -/

theorem le_maxArrival {A : Type} (now : Nat) (reqs : List (Nat × A)) :
    now ≤ maxArrival now reqs := by
  induction reqs generalizing now with
  | nil => exact Nat.le_refl now
  | cons p rest ih => exact le_trans (le_max_left now p.1) (ih (max now p.1))

theorem maxArrival_mono {A : Type} (reqs : List (Nat × A)) (a b : Nat) (h : a ≤ b) :
    maxArrival a reqs ≤ maxArrival b reqs := by
  induction reqs generalizing a b with
  | nil => exact h
  | cons p rest ih => exact ih _ _ (max_le_max h (Nat.le_refl p.1))

theorem fetchLoop_time_le {K : Type} [DecidableEq K] (eager : Option Nat) (d : Nat)
    (pending : List K) (now : Nat) (reqs : List (Nat × List K)) :
    (fetchLoop eager d pending now reqs).1 ≤ maxArrival now reqs + d := by
  induction reqs generalizing pending now with
  | nil =>
      rw [fetchLoop]
      cases hb : shouldRunNow eager pending.length <;> simp [maxArrival]
  | cons p rest ih =>
      obtain ⟨t, ks⟩ := p
      rw [fetchLoop]
      cases hb : shouldRunNow eager pending.length with
      | true =>
          simp only [if_true, maxArrival]
          exact le_trans (le_trans (le_max_left now t) (le_maxArrival _ rest))
            (Nat.le_add_right _ d)
      | false =>
          simp only [Bool.false_eq_true, if_false, maxArrival]
          by_cases ht : t < now + d
          · rw [if_pos ht]
            exact le_trans (ih _ t)
              (Nat.add_le_add_right (maxArrival_mono rest t (max now t) (le_max_right now t)) d)
          · rw [if_neg ht]
            exact Nat.add_le_add_right
              (le_trans (le_max_left now t) (le_maxArrival _ rest)) d

theorem execLoop_time_le {V : Type} (eager : Option Nat) (d : Nat)
    (pending : List V) (now : Nat) (reqs : List (Nat × List V)) :
    (execLoop eager d pending now reqs).1 ≤ maxArrival now reqs + d := by
  induction reqs generalizing pending now with
  | nil =>
      rw [execLoop]
      cases hb : shouldRunNow eager pending.length <;> simp [maxArrival]
  | cons p rest ih =>
      obtain ⟨t, vs⟩ := p
      rw [execLoop]
      cases hb : shouldRunNow eager pending.length with
      | true =>
          simp only [if_true, maxArrival]
          exact le_trans (le_trans (le_max_left now t) (le_maxArrival _ rest))
            (Nat.le_add_right _ d)
      | false =>
          simp only [Bool.false_eq_true, if_false, maxArrival]
          by_cases ht : t < now + d
          · rw [if_pos ht]
            exact le_trans (ih _ t)
              (Nat.add_le_add_right (maxArrival_mono rest t (max now t) (le_max_right now t)) d)
          · rw [if_neg ht]
            exact Nat.add_le_add_right
              (le_trans (le_max_left now t) (le_maxArrival _ rest)) d

theorem fetchLoop_none_time {K : Type} [DecidableEq K] (d : Nat) (pending : List K)
    (now : Nat) (reqs : List (Nat × List K)) :
    (fetchLoop none d pending now reqs).1 = lastAccepted d now reqs + d := by
  induction reqs generalizing pending now with
  | nil => rfl
  | cons p rest ih =>
      obtain ⟨t, ks⟩ := p
      rw [fetchLoop, lastAccepted]
      by_cases ht : t < now + d
      · simp only [shouldRunNow, Bool.false_eq_true, if_false, if_pos ht]
        exact ih _ t
      · simp only [shouldRunNow, Bool.false_eq_true, if_false, if_neg ht]

theorem execLoop_none_time {V : Type} (d : Nat) (pending : List V)
    (now : Nat) (reqs : List (Nat × List V)) :
    (execLoop none d pending now reqs).1 = lastAccepted d now reqs + d := by
  induction reqs generalizing pending now with
  | nil => rfl
  | cons p rest ih =>
      obtain ⟨t, vs⟩ := p
      rw [execLoop, lastAccepted]
      by_cases ht : t < now + d
      · simp only [shouldRunNow, Bool.false_eq_true, if_false, if_pos ht]
        exact ih _ t
      · simp only [shouldRunNow, Bool.false_eq_true, if_false, if_neg ht]

theorem fetchInsertKeys_mem {K : Type} [DecidableEq K] (ks : List K) (p : List K) (k : K) :
    k ∈ fetchInsertKeys p ks ↔ k ∈ p ∨ k ∈ ks := by
  induction ks generalizing p with
  | nil => simp [fetchInsertKeys]
  | cons k1 rest ih =>
      rw [fetchInsertKeys]
      by_cases hk1 : k1 ∈ p
      · rw [if_pos hk1, ih]
        constructor
        · rintro (hp | hr)
          · exact Or.inl hp
          · exact Or.inr (List.mem_cons_of_mem _ hr)
        · rintro (hp | hr)
          · exact Or.inl hp
          · cases List.mem_cons.mp hr with
            | inl heq => exact Or.inl (heq ▸ hk1)
            | inr hm => exact Or.inr hm
      · rw [if_neg hk1, ih]
        simp only [List.mem_append, List.mem_singleton, List.mem_cons]
        tauto

theorem fetchInsertKeys_nodup {K : Type} [DecidableEq K] (ks : List K) (p : List K)
    (hp : p.Nodup) : (fetchInsertKeys p ks).Nodup := by
  induction ks generalizing p with
  | nil => exact hp
  | cons k1 rest ih =>
      rw [fetchInsertKeys]
      by_cases hk1 : k1 ∈ p
      · rw [if_pos hk1]; exact ih p hp
      · rw [if_neg hk1]
        refine ih _ (hp.append (List.nodup_singleton k1) ?_)
        intro a ha hb
        rw [List.mem_singleton] at hb
        exact hk1 (hb ▸ ha)

theorem fetchInsertKeys_length_dedup {K : Type} [DecidableEq K] (ks : List K) :
    (fetchInsertKeys [] ks).length = ks.dedup.length := by
  have h1 : (fetchInsertKeys [] ks).Nodup := fetchInsertKeys_nodup ks [] List.nodup_nil
  have hperm : List.Perm (fetchInsertKeys [] ks) ks.dedup := by
    rw [List.perm_ext_iff_of_nodup h1 (List.nodup_dedup ks)]
    intro a
    rw [fetchInsertKeys_mem, List.mem_dedup]
    simp
  exact hperm.length_eq

/-! ## Lemmas about the execute batch accumulator and result splitting -/

theorem buildExecBatch_go {V : Type} (subs : List (List V)) (p : List V) (st : List Nat) :
    subs.foldl (fun acc vs => (acc.1 ++ vs, acc.2 ++ [acc.1.length])) (p, st) =
      (p ++ subs.flatten, st ++ startsOf p.length (subs.map List.length)) := by
  induction subs generalizing p st with
  | nil => simp [startsOf]
  | cons vs rest ih =>
      rw [List.foldl_cons, ih]
      simp [startsOf, List.append_assoc]

theorem buildExecBatch_eq {V : Type} (subs : List (List V)) :
    buildExecBatch subs = (subs.flatten, startsOf 0 (subs.map List.length)) := by
  have h := buildExecBatch_go subs [] []
  simpa [buildExecBatch] using h

theorem startsOf_append_singleton (acc : Nat) (lens : List Nat) (n : Nat) :
    startsOf acc (lens ++ [n]) = startsOf acc lens ++ [acc + lens.sum] := by
  induction lens generalizing acc with
  | nil => simp [startsOf]
  | cons m rest ih =>
      rw [List.cons_append, startsOf, startsOf, ih]
      simp [Nat.add_assoc]

theorem slicesByLens_append_singleton {R : Type} (lens : List Nat) (n : Nat) (res : List R) :
    slicesByLens res (lens ++ [n]) =
      slicesByLens res lens ++ [(res.drop lens.sum).take n] := by
  induction lens generalizing res with
  | nil => simp [slicesByLens]
  | cons m rest ih =>
      rw [List.cons_append, slicesByLens, slicesByLens, ih]
      simp [List.drop_drop]

theorem slicesByLens_take {R : Type} (lens : List Nat) (res : List R) :
    slicesByLens (res.take lens.sum) lens = slicesByLens res lens := by
  induction lens generalizing res with
  | nil => rfl
  | cons m rest ih =>
      rw [slicesByLens, slicesByLens]
      congr 1
      · rw [List.take_take]
        congr 1
        simp [Nat.min_def, Nat.le_add_right]
      · rw [List.drop_take]
        have heq : (m :: rest).sum - m = rest.sum := by
          rw [List.sum_cons]; omega
        rw [heq, ih]

theorem distributeRev_spec {R : Type} (lens : List Nat) (res : List R)
    (h : res.length = lens.sum) :
    (distributeRev (startsOf 0 lens).reverse res).reverse = slicesByLens res lens := by
  induction lens using List.reverseRecOn generalizing res with
  | nil =>
      simp [startsOf, distributeRev, slicesByLens]
  | append_singleton lens n ih =>
      rw [startsOf_append_singleton, slicesByLens_append_singleton]
      rw [List.reverse_append, List.reverse_singleton]
      simp only [List.singleton_append]
      rw [distributeRev]
      have hsum : lens.sum ≤ res.length := by
        rw [h, List.sum_append, List.sum_cons, List.sum_nil]
        omega
      rw [if_pos (by simpa using hsum)]
      have htavail : (res.take ((0 : Nat) + lens.sum)).length = lens.sum := by
        simp [List.length_take]
        omega
      have hih := ih (res.take ((0:Nat) + lens.sum)) (by simpa using htavail)
      rw [List.reverse_cons]
      simp only [Nat.zero_add] at hih ⊢
      rw [hih, slicesByLens_take]
      congr 1
      have hlen : (res.drop lens.sum).length = n := by
        rw [List.length_drop, h, List.sum_append, List.sum_cons, List.sum_nil]
        omega
      rw [List.take_of_length_le (le_of_eq hlen)]

theorem distributeRev_length {R : Type} (startsRev : List Nat) (res : List R) :
    (distributeRev startsRev res).length = startsRev.length := by
  induction startsRev generalizing res with
  | nil => rfl
  | cons s rest ih =>
      rw [distributeRev]
      by_cases hs : s ≤ res.length
      · rw [if_pos hs]; simp [ih]
      · rw [if_neg hs]; simp [ih]

theorem distributeRev_get_empty {R : Type} (startsRev : List Nat) (res : List R)
    (j : Nat) (s : Nat) (hs : startsRev.get? j = some s) (hlt : res.length < s) :
    (distributeRev startsRev res).get? j = some [] := by
  induction startsRev generalizing res j with
  | nil => cases hs
  | cons s0 rest ih =>
      cases j with
      | zero =>
          obtain rfl : s0 = s := by simpa using hs
          rw [distributeRev, if_neg (by omega)]
          rfl
      | succ j2 =>
          have hs2 : rest.get? j2 = some s := by simpa using hs
          rw [distributeRev]
          by_cases h0 : s0 ≤ res.length
          · rw [if_pos h0]
            have : (res.take s0).length < s := by
              rw [List.length_take]
              omega
            simpa using ih (res.take s0) j2 hs2 this
          · rw [if_neg h0]
            simpa using ih res j2 hs2 hlt

/-! ## Lemmas about the batch trace model -/

theorem stepBatch_covers {K V : Type} [DecidableEq K] (e : FetchBatchEv K V)
    (s : CacheStore K V) (k : K) (hk : k ∈ e.keys) (hok : e.ok = true) :
    (alistGet (stepBatch s e) k).isSome := by
  unfold stepBatch
  rw [hok, if_pos rfl]
  exact markKeysNotFound_covers _ _ _ hk

theorem seqWF_not_mem {K V : Type} [DecidableEq K] (evts : List (FetchBatchEv K V))
    (s : CacheStore K V) (k : K) (hsome : (alistGet s k).isSome)
    (hwf : seqWF s evts = true) : ∀ e ∈ evts, k ∉ e.keys := by
  induction evts generalizing s with
  | nil => intro e he; cases he
  | cons e rest ih =>
      rw [seqWF, Bool.and_eq_true] at hwf
      obtain ⟨h1, h2⟩ := hwf
      intro e2 he2
      cases List.mem_cons.mp he2 with
      | inl heq =>
          subst heq
          intro hkmem
          have := List.all_eq_true.mp h1 k hkmem
          rw [Option.isNone_iff_eq_none] at this
          rw [this] at hsome
          exact Bool.noConfusion hsome
      | inr hm =>
          exact ih (stepBatch s e) (stepBatch_isSome e s k hsome) h2 e2 hm

theorem handlerCallsWith_eq_zero {K V : Type} [DecidableEq K] (k : K)
    (evts : List (FetchBatchEv K V)) (h : ∀ e ∈ evts, k ∉ e.keys) :
    handlerCallsWith k evts = 0 := by
  induction evts with
  | nil => rfl
  | cons e rest ih =>
      have hke : k ∉ e.keys := h e (List.mem_cons_self _ _)
      rw [handlerCallsWith, List.filter_cons]
      rw [if_neg (by simpa using hke)]
      exact ih fun e2 he2 => h e2 (List.mem_cons_of_mem _ he2)

/-! ## Helper lemmas shared by the claim theorems -/

theorem reload_entries_isSome {K V : Type} [DecidableEq K] (c : CacheLookup K V)
    (store : CacheStore K V) (k : K) :
    (alistGet (c.reload store).entries k).isSome = (alistGet c.entries k).isSome := by
  obtain ⟨keys, entries⟩ := c
  rw [reload_entries_get]
  cases alistGet entries k <;> rfl

theorem newCursor_slot {K V : Type} [DecidableEq K] (keys : List K)
    (store : CacheStore K V) (k : K) :
    alistGet ((CacheLookup.new (V := V) keys).reload store).entries k =
      if k ∈ keys then some (alistGet store k) else none := by
  have h1 := reload_entries_get (CacheLookup.new (V := V) keys).entries store keys k
  rw [CacheLookup.new_entries_get] at h1
  by_cases hk : k ∈ keys
  · rw [if_pos hk] at h1
    rw [if_pos hk]
    exact h1
  · rw [if_neg hk] at h1
    rw [if_neg hk]
    exact h1

theorem execDistribute_get_empty {R : Type} (starts : List Nat) (res : List R)
    (i s : Nat) (hs : starts.get? i = some s) (hlt : res.length < s) :
    (execDistribute starts (Except.ok res)).get? i = some (Except.ok []) := by
  have hi : i < starts.length := by
    by_contra hge
    rw [List.get?_eq_none.mpr (by omega)] at hs
    exact Option.noConfusion hs
  have hlen : (distributeRev starts.reverse res).length = starts.length := by
    rw [distributeRev_length, List.length_reverse]
  show (((distributeRev starts.reverse res).map
      (Except.ok : List R → Except String (List R))).reverse).get? i =
    some (Except.ok [])
  have hilt : i < ((distributeRev starts.reverse res).map
      (Except.ok : List R → Except String (List R))).length := by
    rw [List.length_map, hlen]; exact hi
  rw [List.get?_reverse hilt, List.get?_map]
  simp only [List.length_map, hlen]
  have hrev : starts.reverse.get? (starts.length - 1 - i) = some s := by
    rw [List.get?_reverse (by omega)]
    have heq : starts.length - 1 - (starts.length - 1 - i) = i := by omega
    rw [heq]
    exact hs
  rw [distributeRev_get_empty starts.reverse res (starts.length - 1 - i) s hrev hlt]
  rfl

/-! ## Claim theorems -/

/-- Claim C7 (confirmed): `mark_keys_not_found` sets a key to `NotFound`
only when that key has no cache entry yet — an existing `Loaded` entry is
never downgraded and an existing `NotFound` entry is left unchanged; a key
with no entry gets one exactly when it is in the marked list. -/
theorem mark_not_found_never_downgrades {K V : Type} [DecidableEq K]
    (s : CacheStore K V) (keys : List K) (k : K) :
    (∀ st : CacheState V, alistGet s k = some st →
      alistGet (markKeysNotFound s keys) k = some st) ∧
    (alistGet s k = none →
      alistGet (markKeysNotFound s keys) k =
        if k ∈ keys then some CacheState.NotFound else none) :=
  ⟨fun st h => markKeysNotFound_get_some keys s k st h,
   fun h => markKeysNotFound_get_none keys s k h⟩

/-- Claim C2 counterexample: a concrete `mark_not_found` / `insert` /
`insert` sequence under which a key's `NotFound` entry later becomes
`Loaded` and its `Loaded(1)` value later reads `Loaded(2)` — refuting the
claim that once `Loaded(v)` is held every later observation yields the
same `v`, and that a sticky `NotFound` can never change, over every
sequence of insert and mark-not-found operations. -/
theorem cache_monotonicity_counterexample :
    alistGet (applyOps ([] : CacheStore Nat Nat) [CacheOp.markNotFound [0]]) 0 =
        some CacheState.NotFound ∧
    alistGet (applyOps ([] : CacheStore Nat Nat)
        [CacheOp.markNotFound [0], CacheOp.insert 0 1]) 0 =
        some (CacheState.Loaded 1) ∧
    alistGet (applyOps ([] : CacheStore Nat Nat)
        [CacheOp.markNotFound [0], CacheOp.insert 0 1, CacheOp.insert 0 2]) 0 =
        some (CacheState.Loaded 2) ∧
    (CacheState.Loaded 1 ≠ CacheState.Loaded 2 ∧
      some (CacheState.Loaded (1 : Nat)) ≠ some CacheState.NotFound) := by
  decide

/-- Claim C2 amended (proved): the cache is monotone in the weaker order
absent < NotFound-or-Loaded: across every sequence of insert and
mark-not-found operations an entry never disappears, a `Loaded` entry
stays `Loaded` (though a later `insert` of the same key may change the
value), and `mark_keys_not_found` never changes an existing entry; a
`NotFound` entry can only be replaced by a `Loaded` one, never removed. -/
theorem cache_monotone_amended {K V : Type} [DecidableEq K] (s : CacheStore K V)
    (ops : List (CacheOp K V)) (k : K) :
    ((alistGet s k).isSome → (alistGet (applyOps s ops) k).isSome) ∧
    (isLoadedEntry (alistGet s k) = true →
      isLoadedEntry (alistGet (applyOps s ops) k) = true) ∧
    (∀ (keys : List K) (st : CacheState V), alistGet s k = some st →
      alistGet (markKeysNotFound s keys) k = some st) :=
  ⟨fun h => applyOps_isSome ops s k h,
   fun h => applyOps_isLoaded ops s k h,
   fun keys st h => markKeysNotFound_get_some keys s k st h⟩

/-- Claim C3 (confirmed): the execute worker hands the handler exactly the
submissions' values concatenated in submission order with recorded start
indices equal to the running offsets; when the handler returns a result
vector of full length, the reverse-order split_off distribution gives
submission `i` exactly the block of results at positions
`[start_i, start_i + len_i)`; and any submission whose recorded split
point exceeds the returned vector's length receives an empty slice. -/
theorem execute_batch_splitting {V R : Type} :
    (∀ subs : List (List V),
        buildExecBatch subs = (subs.flatten, startsOf 0 (subs.map List.length))) ∧
    (∀ (subs : List (List R)) (res : List R), res.length = subs.flatten.length →
        execDistribute (buildExecBatch subs).2 (Except.ok res) =
          (slicesByLens res (subs.map List.length)).map Except.ok) ∧
    (∀ (starts : List Nat) (res : List R) (i s : Nat),
        starts.get? i = some s → res.length < s →
        (execDistribute starts (Except.ok res)).get? i = some (Except.ok [])) := by
  refine ⟨buildExecBatch_eq, ?_, execDistribute_get_empty⟩
  intro subs res h
  rw [buildExecBatch_eq]
  show ((distributeRev (startsOf 0 (subs.map List.length)).reverse res).map
      Except.ok).reverse = _
  rw [← List.map_reverse]
  rw [distributeRev_spec (subs.map List.length) res (by simpa using h)]

/-- Witness for C3 at a concrete batch: two submissions `[1, 2]` and `[3]`
and the full-length result `[10, 20, 30]` split into `[10, 20]` and
`[30]`; a start index past the end of a short result yields `ok []`. -/
theorem execute_batch_splitting_witness :
    execDistribute (buildExecBatch [[1, 2], [3]] : List Nat × List Nat).2
        (Except.ok [10, 20, 30]) =
      (slicesByLens [10, 20, 30] ([[1, 2], [3]].map List.length)).map Except.ok ∧
    (execDistribute [0, 5] (Except.ok ([10] : List Nat))).get? 1 =
      some (Except.ok []) := by
  exact ⟨(execute_batch_splitting (V := Nat) (R := Nat)).2.1 [[1, 2], [3]] [10, 20, 30]
      (by decide),
    (execute_batch_splitting (V := Nat) (R := Nat)).2.2 [0, 5] [10] 1 5 rfl (by decide)⟩

theorem foldl_reload_inv {K V : Type} [DecidableEq K] (stores : List (CacheStore K V))
    (c : CacheLookup K V) :
    (stores.foldl (fun c store => c.reload store) c).keys = c.keys ∧
    ∀ k, (alistGet (stores.foldl (fun c store => c.reload store) c).entries k).isSome =
      (alistGet c.entries k).isSome := by
  induction stores generalizing c with
  | nil => exact ⟨rfl, fun k => rfl⟩
  | cons st rest ih =>
      rw [List.foldl_cons]
      obtain ⟨h1, h2⟩ := ih (c.reload st)
      exact ⟨h1, fun k => (h2 k).trans (reload_entries_isSome c st k)⟩

/-- Claim C5 (confirmed): after a successful fetch batch (handler inserts,
then the mark-not-found post-step over the batch keys) every batch key has
a cache entry; consequently a lookup cursor whose pending keys were all
sent in the batch finds `lookup` returning `Done` against any store that
still holds those entries — the `Pending` panic branch after a successful
reply is unreachable. -/
theorem successful_batch_second_lookup_done {K V : Type} [DecidableEq K]
    (s : CacheStore K V) (batchKeys : List K) (ins : List (K × V))
    (c : CacheLookup K V) (s2 : CacheStore K V)
    (hsub : ∀ k ∈ c.pendingKeys, k ∈ batchKeys)
    (hext : ∀ k, (alistGet (workerFetchP3 s batchKeys ins (Except.ok ())).1 k).isSome →
      (alistGet s2 k).isSome) :
    (∀ k ∈ batchKeys,
      (alistGet (workerFetchP3 s batchKeys ins (Except.ok ())).1 k).isSome) ∧
    (c.lookup s2).2 = CacheLookupState.Done (c.reload s2).lookupResult := by
  have hcov : ∀ k ∈ batchKeys,
      (alistGet (workerFetchP3 s batchKeys ins (Except.ok ())).1 k).isSome := by
    intro k hk
    show (alistGet (markKeysNotFound (applyInserts s ins) batchKeys) k).isSome
    exact markKeysNotFound_covers _ _ _ hk
  refine ⟨hcov, lookup_done_of_resolved c s2 ?_⟩
  intro k hk
  exact hext k (hcov k (hsub k hk))

/-- Witness for C5: an empty store, batch keys `[0, 1]`, handler insert
`(0, 5)` — after the batch both keys have entries, and a fresh cursor over
`[0, 1]` (all keys pending) reaches `Done` on its post-reply lookup. -/
theorem successful_batch_second_lookup_done_witness :
    (∀ k ∈ ([0, 1] : List Nat),
      (alistGet (workerFetchP3 ([] : CacheStore Nat Nat) [0, 1] [(0, 5)]
          (Except.ok ())).1 k).isSome) ∧
    ((CacheLookup.new (V := Nat) [0, 1]).lookup
        (workerFetchP3 ([] : CacheStore Nat Nat) [0, 1] [(0, 5)] (Except.ok ())).1).2 =
      CacheLookupState.Done
        (((CacheLookup.new (V := Nat) [0, 1]).reload
            (workerFetchP3 ([] : CacheStore Nat Nat) [0, 1] [(0, 5)]
              (Except.ok ())).1).lookupResult) :=
  successful_batch_second_lookup_done ([] : CacheStore Nat Nat) [0, 1] [(0, 5)]
    (CacheLookup.new (V := Nat) [0, 1])
    (workerFetchP3 ([] : CacheStore Nat Nat) [0, 1] [(0, 5)] (Except.ok ())).1
    (by decide) (fun _ h => h)

/-- Claim C8 (confirmed): when the fetch handler fails, the worker's batch
result is the stringified error; every reply channel receives that same
message; no key is newly marked `NotFound` (the post-step is skipped);
the cache is exactly the prior store overlaid with the handler's inserts:
any key the handler did not insert keeps its old entry, and every key the
handler inserted **remains** in the cache holding the (last) inserted
value as `Loaded`; and a waiting `load_keys` call maps the error reply to
`FetchError(msg)`. -/
theorem fetch_error_broadcast {K V : Type} [DecidableEq K]
    (s : CacheStore K V) (batchKeys : List K) (ins : List (K × V)) (msg : String)
    (n : Nat) (c : CacheLookup K V) (store2 : CacheStore K V) :
    (workerFetchP3 s batchKeys ins (Except.error msg)).2 = Except.error msg ∧
    fanOutReplies n (workerFetchP3 s batchKeys ins (Except.error msg)).2 =
      List.replicate n (Except.error msg) ∧
    (∀ k, alistGet (workerFetchP3 s batchKeys ins (Except.error msg)).1 k =
        some CacheState.NotFound → alistGet s k = some CacheState.NotFound) ∧
    (∀ k, alistGet (workerFetchP3 s batchKeys ins (Except.error msg)).1 k = alistGet s k ∨
      ∃ v, (k, v) ∈ ins ∧
        alistGet (workerFetchP3 s batchKeys ins (Except.error msg)).1 k =
          some (CacheState.Loaded v)) ∧
    (∀ (k : K) (v : V), lastInsertedVal ins k = some v →
      alistGet (workerFetchP3 s batchKeys ins (Except.error msg)).1 k =
        some (CacheState.Loaded v)) ∧
    loadKeysAfterReply c store2 (Except.error msg) =
      some (Except.error (LoadError.FetchError msg)) := by
  refine ⟨rfl, rfl, ?_, ?_, ?_, rfl⟩
  · intro k h
    exact applyInserts_notFound ins s k h
  · intro k
    exact applyInserts_get_eq_or_inserted ins s k
  · intro k v hv
    show alistGet (applyInserts s ins) k = some (CacheState.Loaded v)
    rw [applyInserts_get_last, hv]

/-- Witness for C8: a store holding a sticky `NotFound` for key 3; after a
failed batch over keys `[0, 3]` with handler insert `(0, 5)`, key 3's
`NotFound` entry is untouched (any `NotFound` after the failed batch was
already there before) and the handler's insert of `(0, 5)` remains in the
cache as `Loaded 5`. -/
theorem fetch_error_broadcast_witness :
    alistGet (markKeysNotFound ([] : CacheStore Nat Nat) [3]) 3 =
        some CacheState.NotFound ∧
    alistGet (workerFetchP3 (markKeysNotFound ([] : CacheStore Nat Nat) [3]) [0, 3]
        [(0, 5)] (Except.error "boom")).1 0 = some (CacheState.Loaded 5) :=
  ⟨(fetch_error_broadcast (markKeysNotFound ([] : CacheStore Nat Nat) [3]) [0, 3]
      [(0, 5)] "boom" 2 (CacheLookup.new (V := Nat) [9]) []).2.2.1 3 (by decide),
   (fetch_error_broadcast (markKeysNotFound ([] : CacheStore Nat Nat) [3]) [0, 3]
      [(0, 5)] "boom" 2 (CacheLookup.new (V := Nat) [9]) []).2.2.2.2.1 0 5 rfl⟩

/-- Claim C9 (confirmed): when a lookup over `keys` resolves from the
store with `Ok(vs)`, `vs` has the same length as `keys` and its element
`i` is the store's `Loaded` value for `keys[i]` (so duplicate keys get
equal values, resolved through the one shared slot); and if any requested
key's store entry is `NotFound`, the lookup returns the `NotFound` error
for the whole call instead of a partial vector. -/
theorem load_many_ordering {K V : Type} [DecidableEq K] (keys : List K)
    (store : CacheStore K V) :
    (∀ vs : List V,
      ((CacheLookup.new (V := V) keys).reload store).lookupResult =
          some (Except.ok vs) →
      vs.length = keys.length ∧
      (∀ i (hi : i < keys.length) (hv : i < vs.length),
        alistGet store (keys.get ⟨i, hi⟩) =
          some (CacheState.Loaded (vs.get ⟨i, hv⟩))) ∧
      (∀ i j (hi : i < keys.length) (hj : j < keys.length) (hvi : i < vs.length)
          (hvj : j < vs.length), keys.get ⟨i, hi⟩ = keys.get ⟨j, hj⟩ →
          vs.get ⟨i, hvi⟩ = vs.get ⟨j, hvj⟩)) ∧
    (∀ k0 ∈ keys, alistGet store k0 = some CacheState.NotFound →
      ((CacheLookup.new (V := V) keys).reload store).lookupResult =
        some (Except.error LoadError.NotFound)) := by
  constructor
  · intro vs h
    obtain ⟨hlen, hpt⟩ := lookupResultGo_ok_spec
      ((CacheLookup.new (V := V) keys).reload store).entries keys vs h
    refine ⟨hlen, ?_, ?_⟩
    · intro i hi hv
      have harb := hpt i hi hv
      have hk := newCursor_slot (V := V) keys store (keys.get ⟨i, hi⟩)
      rw [if_pos (List.get_mem keys i hi)] at hk
      rw [hk] at harb
      exact Option.some.inj harb
    · intro i j hi hj hvi hvj heq
      have h1 := hpt i hi hvi
      have h2 := hpt j hj hvj
      rw [heq] at h1
      rw [h1] at h2
      exact CacheState.Loaded.inj (Option.some.inj (Option.some.inj h2))
  · intro k0 hk0 hnf
    have hwf : ∀ k ∈ keys,
        (alistGet ((CacheLookup.new (V := V) keys).reload store).entries k).isSome := by
      intro k hk
      rw [newCursor_slot (V := V) keys store k, if_pos hk]
      rfl
    have hent : alistGet ((CacheLookup.new (V := V) keys).reload store).entries k0 =
        some (some CacheState.NotFound) := by
      rw [newCursor_slot (V := V) keys store k0, if_pos hk0, hnf]
    exact lookupResultGo_notFound _ keys k0 hwf hk0 hent

/-- Claim C10 (confirmed): a cursor built by `CacheLookup::new` holds an
entry for every requested key; reloading from a store never adds or
removes entries; hence for every cursor reachable through the public
load path — `new` followed by any sequence of reloads — `lookup_result`
never hits the missing-key `expect` (the panic embedded as `none`). -/
theorem lookup_cursor_totality {K V : Type} [DecidableEq K] (keys : List K)
    (stores : List (CacheStore K V)) :
    (∀ k ∈ keys, (alistGet (CacheLookup.new (V := V) keys).entries k).isSome) ∧
    (∀ (c : CacheLookup K V) (store : CacheStore K V) (k : K),
        (alistGet (c.reload store).entries k).isSome = (alistGet c.entries k).isSome) ∧
    (stores.foldl (fun c store => c.reload store)
        (CacheLookup.new (V := V) keys)).lookupResult ≠ none := by
  refine ⟨?_, reload_entries_isSome, ?_⟩
  · intro k hk
    rw [CacheLookup.new_entries_get, if_pos hk]
    rfl
  · obtain ⟨hkeys, hent⟩ := foldl_reload_inv stores (CacheLookup.new (V := V) keys)
    have hwf : ∀ k ∈ (stores.foldl (fun c store => c.reload store)
        (CacheLookup.new (V := V) keys)).keys,
        (alistGet (stores.foldl (fun c store => c.reload store)
          (CacheLookup.new (V := V) keys)).entries k).isSome := by
      intro k hk
      rw [hkeys] at hk
      have hk2 : k ∈ keys := hk
      rw [hent k, CacheLookup.new_entries_get, if_pos hk2]
      rfl
    have hs := lookupResultGo_isSome
      (stores.foldl (fun c store => c.reload store)
        (CacheLookup.new (V := V) keys)).entries
      (stores.foldl (fun c store => c.reload store)
        (CacheLookup.new (V := V) keys)).keys hwf
    rw [Option.ne_none_iff_isSome]
    exact hs

theorem handlerCallsWith_cons_mem {K V : Type} [DecidableEq K] (k : K)
    (e : FetchBatchEv K V) (rest : List (FetchBatchEv K V)) (hk : k ∈ e.keys) :
    handlerCallsWith k (e :: rest) = handlerCallsWith k rest + 1 := by
  rw [handlerCallsWith, handlerCallsWith, List.filter_cons, if_pos (by simpa using hk)]
  simp

theorem handlerCallsWith_cons_not_mem {K V : Type} [DecidableEq K] (k : K)
    (e : FetchBatchEv K V) (rest : List (FetchBatchEv K V)) (hk : k ∉ e.keys) :
    handlerCallsWith k (e :: rest) = handlerCallsWith k rest := by
  rw [handlerCallsWith, handlerCallsWith, List.filter_cons, if_neg (by simpa using hk)]

/-- Claim C1 counterexample: fetch worker, `delay_duration = 10`,
`eager_batch_size = None`, submissions arriving at times 0, 5 and 12.
Each arrival restarts the sleep (it is created afresh inside the
wait-for-more-keys loop), so the batch flushes at 22 — later than
first-submission-time + delay = 10, refuting the claim that the batch
flushes no later than `delay_duration` after the first submission. -/
theorem flush_timer_counterexample :
    fetchBatchRun (K := Nat) none 10 [(0, [1]), (5, [2]), (12, [3])] =
      some (22, [1, 2, 3], []) ∧ ¬((22 : Nat) ≤ 0 + 10) :=
  ⟨rfl, by decide⟩

/-- Claim C1 amended (proved): the flush delay timer restarts at each
submission accepted into the batch (a debounce, not a single-shot timer):
for both workers the flush time is bounded by the latest arrival plus
`delay_duration`, and with no eager threshold it equals exactly
`delay_duration` after the last accepted submission — not after the
first. -/
theorem flush_timer_debounce {K V : Type} [DecidableEq K] :
    (∀ (eager : Option Nat) (d : Nat) (pending : List K) (now : Nat)
        (reqs : List (Nat × List K)),
        (fetchLoop eager d pending now reqs).1 ≤ maxArrival now reqs + d) ∧
    (∀ (eager : Option Nat) (d : Nat) (pending : List V) (now : Nat)
        (reqs : List (Nat × List V)),
        (execLoop eager d pending now reqs).1 ≤ maxArrival now reqs + d) ∧
    (∀ (d : Nat) (pending : List K) (now : Nat) (reqs : List (Nat × List K)),
        (fetchLoop none d pending now reqs).1 = lastAccepted d now reqs + d) ∧
    (∀ (d : Nat) (pending : List V) (now : Nat) (reqs : List (Nat × List V)),
        (execLoop none d pending now reqs).1 = lastAccepted d now reqs + d) :=
  ⟨fetchLoop_time_le, execLoop_time_le, fetchLoop_none_time, execLoop_none_time⟩

/-- Claim C6 (confirmed): with `eager_batch_size = Some n` the worker
flushes as soon as the accumulated size reaches `n` — immediately, at the
current instant, consuming no further request; a single first submission
of size at least `n` flushes at its own arrival time with all of its
items; batch size counts distinct keys for fetch (the pending set
deduplicates) and every value for execute (the pending list concatenates);
and with `eager_batch_size = None` the flush time is always exactly
`delay_duration` after the last accepted submission — only the delay ends
the batch. -/
theorem eager_flush_threshold {K V : Type} [DecidableEq K] :
    (∀ (n d : Nat) (pending : List K) (now : Nat) (reqs : List (Nat × List K)),
        n ≤ pending.length →
        fetchLoop (some n) d pending now reqs = (now, pending, reqs)) ∧
    (∀ (n d : Nat) (pending : List V) (now : Nat) (reqs : List (Nat × List V)),
        n ≤ pending.length →
        execLoop (some n) d pending now reqs = (now, pending, reqs)) ∧
    (∀ (n d t : Nat) (ks : List K) (rest : List (Nat × List K)),
        n ≤ (fetchInsertKeys [] ks).length →
        fetchBatchRun (some n) d ((t, ks) :: rest) =
          some (t, fetchInsertKeys [] ks, rest)) ∧
    (∀ (n d t : Nat) (vs : List V) (rest : List (Nat × List V)),
        n ≤ vs.length →
        execBatchRun (some n) d ((t, vs) :: rest) = some (t, vs, rest)) ∧
    (∀ ks : List K, (fetchInsertKeys [] ks).length = ks.dedup.length ∧
        ∀ k, k ∈ fetchInsertKeys [] ks ↔ k ∈ ks) ∧
    (∀ subs : List (List V),
        (buildExecBatch subs).1.length = (subs.map List.length).sum) ∧
    (∀ (d : Nat) (pending : List K) (now : Nat) (reqs : List (Nat × List K)),
        (fetchLoop none d pending now reqs).1 = lastAccepted d now reqs + d) ∧
    (∀ (d : Nat) (pending : List V) (now : Nat) (reqs : List (Nat × List V)),
        (execLoop none d pending now reqs).1 = lastAccepted d now reqs + d) := by
  have hfetch : ∀ (n d : Nat) (pending : List K) (now : Nat)
      (reqs : List (Nat × List K)), n ≤ pending.length →
      fetchLoop (some n) d pending now reqs = (now, pending, reqs) := by
    intro n d pending now reqs h
    have hb : shouldRunNow (some n) pending.length = true := by
      simp [shouldRunNow, h]
    cases reqs with
    | nil => rw [fetchLoop, if_pos hb]
    | cons p rest =>
        obtain ⟨t, ks⟩ := p
        rw [fetchLoop, if_pos hb]
  have hexec : ∀ (n d : Nat) (pending : List V) (now : Nat)
      (reqs : List (Nat × List V)), n ≤ pending.length →
      execLoop (some n) d pending now reqs = (now, pending, reqs) := by
    intro n d pending now reqs h
    have hb : shouldRunNow (some n) pending.length = true := by
      simp [shouldRunNow, h]
    cases reqs with
    | nil => rw [execLoop, if_pos hb]
    | cons p rest =>
        obtain ⟨t, vs⟩ := p
        rw [execLoop, if_pos hb]
  refine ⟨hfetch, hexec, ?_, ?_, ?_, ?_, fetchLoop_none_time, execLoop_none_time⟩
  · intro n d t ks rest h
    rw [fetchBatchRun, hfetch n d _ t rest h]
  · intro n d t vs rest h
    rw [execBatchRun, hexec n d _ t rest h]
  · intro ks
    refine ⟨fetchInsertKeys_length_dedup ks, fun k => ?_⟩
    rw [fetchInsertKeys_mem ks [] k]
    simp
  · intro subs
    rw [buildExecBatch_eq]
    simp

/-- Claim C4 counterexample: two successful batches both containing key 0,
where the second batch's request was computed against the initial (stale,
empty) store while the first batch was still in flight — a schedule the
worker admits, since it never re-checks the cache for incoming request
keys.  Every batch containing key 0 succeeds, yet the handler is invoked
with key 0 twice, refuting exactly-once per coalescer lifetime. -/
theorem at_most_once_counterexample :
    concWF ([] : CacheStore Nat Nat)
        [⟨[0], [(0, 5)], true⟩, ⟨[0], [(0, 5)], true⟩] = true ∧
    (∀ e ∈ ([⟨[0], [(0, 5)], true⟩, ⟨[0], [(0, 5)], true⟩] :
        List (FetchBatchEv Nat Nat)), 0 ∈ e.keys → e.ok = true) ∧
    handlerCallsWith 0 ([⟨[0], [(0, 5)], true⟩, ⟨[0], [(0, 5)], true⟩] :
        List (FetchBatchEv Nat Nat)) = 2 := by
  decide

/-- Claim C4 amended (proved): in every batch trace in which each batch's
keys are pending with respect to the store state immediately preceding
that batch (no request computed against a stale cache while a batch
containing the key is in flight), if every batch containing key `k`
succeeds then the handler is invoked with `k` at most once: the first
successful batch containing `k` leaves a cache entry for `k`, entries
never disappear, and a key with an entry is never pending again. -/
theorem at_most_one_handler_call_per_key {K V : Type} [DecidableEq K]
    (s0 : CacheStore K V) (evts : List (FetchBatchEv K V)) (k : K)
    (hwf : seqWF s0 evts = true)
    (hok : ∀ e ∈ evts, k ∈ e.keys → e.ok = true) :
    handlerCallsWith k evts ≤ 1 := by
  induction evts generalizing s0 with
  | nil => exact Nat.zero_le 1
  | cons e rest ih =>
      rw [seqWF, Bool.and_eq_true] at hwf
      obtain ⟨h1, h2⟩ := hwf
      by_cases hke : k ∈ e.keys
      · have hok1 : e.ok = true := hok e (List.mem_cons_self _ _) hke
        have hsome := stepBatch_covers e s0 k hke hok1
        have hz := handlerCallsWith_eq_zero k rest
          (seqWF_not_mem rest (stepBatch s0 e) k hsome h2)
        rw [handlerCallsWith_cons_mem k e rest hke, hz]
      · rw [handlerCallsWith_cons_not_mem k e rest hke]
        exact ih (stepBatch s0 e) h2 fun e2 he2 hk2 =>
          hok e2 (List.mem_cons_of_mem _ he2) hk2

/-- Witness for the amended C4: a sequentially well-formed two-batch trace
(keys `[0]` then `[1]`, both successful) in which the handler runs with
key 0 at most once. -/
theorem at_most_one_handler_call_per_key_witness :
    handlerCallsWith 0 ([⟨[0], [(0, 5)], true⟩, ⟨[1], [], true⟩] :
      List (FetchBatchEv Nat Nat)) ≤ 1 :=
  at_most_one_handler_call_per_key ([] : CacheStore Nat Nat)
    [⟨[0], [(0, 5)], true⟩, ⟨[1], [], true⟩] 0 (by decide) (by decide)
